import Mathlib

/-!
Verification of the `table-column-integrity` linting rule
(`src/content-linter/lib/linting-rules/table-column-integrity.js`).

Lines are modelled as `List Char` (a document line never contains a line
terminator, but the embedding keeps the JavaScript regex semantics precise
anyway: `.` does not match line terminators while `\s` does).  The external
collaborators are abstracted exactly as the spec prescribes: front-matter
decoding is reduced to the boolean `autogenerated` flag it supplies, and the
host `getRange` highlight helper is omitted from the diagnostic record.
-/

namespace TableColumnIntegrity

/-- The JavaScript `\s` character class (ECMAScript WhiteSpace and
LineTerminator), as used by `String.prototype.trim` and the `\s` atoms of the
three regexes in the rule. -/
def isWS (c : Char) : Bool :=
  c == ' ' || c == '\t' || c == '\n' || c == '\r' || c == '\x0b' || c == '\x0c' ||
  c == '\u00A0' || c == '\u1680' || ( '\u2000' ≤ c && c ≤ '\u200A' ) ||
  c == '\u2028' || c == '\u2029' || c == '\u202F' || c == '\u205F' ||
  c == '\u3000' || c == '\uFEFF'

/-- ECMAScript line terminators: the characters that `.` in a regex does not
match. -/
def isLineTerm (c : Char) : Bool :=
  c == '\n' || c == '\r' || c == '\u2028' || c == '\u2029'

/-- The character class `[\s\-:|\s]` of `TABLE_SEPARATOR_REGEX`. -/
def isSepClassChar (c : Char) : Bool :=
  isWS c || c == '-' || c == ':' || c == '|'

/-- Being a character other than the cell delimiter. -/
def notPipe (c : Char) : Bool := !(c == '|')

/-- Leading-whitespace removal (half of JavaScript `trim`). -/
def trimL (l : List Char) : List Char := l.dropWhile isWS

/-- Trailing-whitespace removal (the other half of JavaScript `trim`). -/
def trimR (l : List Char) : List Char := (l.reverse.dropWhile isWS).reverse

/-- JavaScript `String.prototype.trim`. -/
def trim (l : List Char) : List Char := trimL (trimR l)

/-- JavaScript `row.includes('|')`. -/
def hasPipe (l : List Char) : Bool := l.any fun c => c == '|'

/-- Worker for `splitOnPipe`: returns the piece before the first delimiter and
the list of the remaining pieces. -/
def splitPipeAux : List Char → List Char × List (List Char)
  | [] => ([], [])
  | c :: r =>
    let rest := splitPipeAux r
    if c == '|' then ([], rest.1 :: rest.2) else (c :: rest.1, rest.2)

/-- JavaScript `row.split('|')`: one piece per delimiter gap, empty pieces
included, never the empty list. -/
def splitOnPipe (l : List Char) : List (List Char) :=
  (splitPipeAux l).1 :: (splitPipeAux l).2

/-- `TABLE_ROW_REGEX = /^\s*\|.*\|\s*$/` : optional whitespace, a delimiter,
any non-line-terminator characters, a delimiter, optional whitespace. -/
def isTableRow (line : List Char) : Bool :=
  let t := line.dropWhile isWS
  (t.head? == some '|') &&
    (let core := trimR t.tail
     (core.getLast? == some '|') && core.dropLast.all fun e => !isLineTerm e)

/-- `TABLE_SEPARATOR_REGEX = /^\s*\|[\s\-:|\s]*\|\s*$/` : optional whitespace,
a delimiter, characters from the separator class, a delimiter, optional
whitespace. -/
def isSeparatorRow (line : List Char) : Bool :=
  let t := line.dropWhile isWS
  (t.head? == some '|') &&
    (let core := trimR t.tail
     (core.getLast? == some '|') && core.dropLast.all isSepClassChar)

/-- The `.*%}\s*$` tail of `LIQUID_ONLY_CELL_REGEX`, applied to the text that
follows the recognized keyword: some `%}` closing marker followed only by
whitespace, with no line terminator before it. -/
def liquidTagClose (l : List Char) : Bool :=
  match (trimR l).reverse with
  | '}' :: '%' :: before => before.all fun c => !isLineTerm c
  | _ => false

/-- One alternative of the keyword alternation: the keyword is a prefix of the
remaining text and the rest of the cell closes the tag. -/
def kwAfter (kw : List Char) (m : List Char) : Bool :=
  kw.isPrefixOf m && liquidTagClose (m.drop kw.length)

/-- The keyword alternation `(ifversion|else|endif|elsif)` of
`LIQUID_ONLY_CELL_REGEX`. -/
def liquidKeywords : List (List Char) :=
  [ "ifversion".toList, "else".toList, "endif".toList, "elsif".toList ]

/-- `LIQUID_ONLY_CELL_REGEX = /^\s*{%\s*(ifversion|else|endif|elsif).*%}\s*$/`
tested on one cell. -/
def liquidCell (cell : List Char) : Bool :=
  match cell.dropWhile isWS with
  | '{' :: '%' :: rest =>
    liquidKeywords.any fun kw => kwAfter kw (rest.dropWhile isWS)
  | _ => false

/-- `if (cells.length > 0 && cells[0].trim() === '') cells.shift()` from
`countColumns`. -/
def dropFirstIfBlank : List (List Char) → List (List Char)
  | [] => []
  | c :: cs => if (trim c).isEmpty then cs else c :: cs

/-- `if (cells.length > 0 && cells[cells.length - 1].trim() === '')
cells.pop()` from `countColumns`, applied after the shift. -/
def dropLastIfBlank (cs : List (List Char)) : List (List Char) :=
  match cs.getLast? with
  | some c => if (trim c).isEmpty then cs.dropLast else cs
  | none => cs

/-- The cell list `countColumns` measures: split on the delimiter, then the
shift/pop discard of blank first/last pieces. -/
def cellsByShiftPop (trimmed : List Char) : List (List Char) :=
  dropLastIfBlank (dropFirstIfBlank (splitOnPipe trimmed))

/-- `countColumns(row)` from the source. -/
def countColumns (row : List Char) : Nat :=
  let trimmed := trim row
  if trimmed.isEmpty || !hasPipe trimmed then 0
  else (cellsByShiftPop trimmed).length

/-- The predicate of the index-based `cells.filter((cell, index) => ...)` in
`isLiquidOnlyRow`: discard the piece at index `0` or at index `n - 1` when it
is blank after trimming. -/
def keepCell (n i : Nat) (cell : List Char) : Bool :=
  !((i == 0 && (trim cell).isEmpty) || (i == n - 1 && (trim cell).isEmpty))

/-- `Array.prototype.filter` with the element index, specialised to
`keepCell n`. -/
def filterIdx (n : Nat) : Nat → List (List Char) → List (List Char)
  | _, [] => []
  | i, c :: cs => if keepCell n i c then c :: filterIdx n (i + 1) cs else filterIdx n (i + 1) cs

/-- The cell list `isLiquidOnlyRow` inspects: split on the delimiter, then the
index-based filter of blank first/last pieces. -/
def cellsByFilter (trimmed : List Char) : List (List Char) :=
  filterIdx (splitOnPipe trimmed).length 0 (splitOnPipe trimmed)

/-- `isLiquidOnlyRow(row)` from the source. -/
def isLiquidOnlyRow (row : List Char) : Bool :=
  let trimmed := trim row
  if !hasPipe trimmed then false
  else
    let fc := cellsByFilter trimmed
    !fc.isEmpty && fc.all liquidCell

/-- One `addError` call: the line number (1-based), the message, and the raw
line text.  The highlight range is computed by the host-provided `getRange`
utility, an external collaborator outside the verified core, and the fix
suggestion is always `null`. -/
structure Diagnostic where
  lineNumber : Nat
  detail : String
  context : List Char
deriving DecidableEq

/-- The two template-literal error messages of the rule. -/
def mkMessage (actual expected : Nat) : String :=
  if expected < actual then
    "Table row has " ++ toString actual ++ " columns but header has " ++
      toString expected ++ ". Add " ++ toString (actual - expected) ++
      " more column(s) to the header row to match this row."
  else
    "Table row has " ++ toString actual ++ " columns but header has " ++
      toString expected ++ ". Add " ++ toString (expected - actual) ++
      " missing column(s) to this row."

/-- The `lines[i + 1]` lookahead: `nextLine && TABLE_SEPARATOR_REGEX.test(nextLine)`
(an absent next line, like a falsy empty one, fails the separator test). -/
def nextIsSep : List (List Char) → Bool
  | next :: _ => isSeparatorRow next
  | [] => false

/-- The per-line loop of the rule.  `i` is the 0-based index of the current
line.  The scan state combines the `inTable` flag with `expectedColumnCount`:
the two variables are set and cleared together in the source, so the state is
`none` (outside a table) or `some expected` (inside one). -/
def scanLines : Nat → Option Nat → List (List Char) → List Diagnostic
  | _, _, [] => []
  | i, none, line :: rest =>
    if isTableRow line && nextIsSep rest then
      scanLines (i + 1) (some (countColumns line)) rest
    else
      scanLines (i + 1) none rest
  | i, some expected, line :: rest =>
    if !isTableRow line then
      scanLines (i + 1) none rest
    else if isSeparatorRow line then
      scanLines (i + 1) (some expected) rest
    else if isLiquidOnlyRow line then
      scanLines (i + 1) (some expected) rest
    else if countColumns line != expected then
      { lineNumber := i + 1
        detail := mkMessage (countColumns line) expected
        context := line } :: scanLines (i + 1) (some expected) rest
    else
      scanLines (i + 1) (some expected) rest

/-- The rule's `function`: the autogenerated front-matter gate followed by the
scan.  Front-matter decoding is an external collaborator; `autogenerated` is
the truthiness of `fm && fm.autogenerated`. -/
def tableColumnIntegrity (autogenerated : Bool) (lines : List (List Char)) :
    List Diagnostic :=
  if autogenerated then [] else scanLines 0 none lines

/-- Rule metadata (`names`). -/
def ruleNames : List String := [ "GHD047", "table-column-integrity" ]

/-- Rule metadata (`severity`). -/
def ruleSeverity : String := "error"

/-- The diagnostics a scan emitted at a given 1-based line number. -/
def diagsAt (n : Nat) (ds : List Diagnostic) : List Diagnostic :=
  ds.filter fun d => d.lineNumber == n

/-- Whether some line of the list is a table row immediately followed by a
separator row — the only configuration that opens a table region. -/
def hasOpeningPair : List (List Char) → Bool
  | l :: rest => (isTableRow l && nextIsSep rest) || hasOpeningPair rest
  | [] => false

/-! ### Generic facts about `dropWhile` and `takeWhile` -/

theorem dropWhile_head_false {p : Char → Bool} :
    ∀ {l : List Char} {c : Char} {t : List Char},
      List.dropWhile p l = c :: t → p c = false := by
  intro l
  induction l with
  | nil => intro c t h; simp at h
  | cons a l ih =>
    intro c t h
    rw [List.dropWhile_cons] at h
    cases hpa : p a
    · rw [hpa] at h
      simp only [Bool.false_eq_true, if_false] at h
      obtain ⟨h1, -⟩ := List.cons.injEq a l c t ▸ h
      rw [← h1]
      exact hpa
    · rw [hpa] at h
      simp only [if_true] at h
      exact ih h

theorem dropWhile_append_single {p : Char → Bool} {z : Char} (hz : p z = false) :
    ∀ ys : List Char, ∃ u, List.dropWhile p (ys ++ [z]) = u ++ [z] := by
  intro ys
  induction ys with
  | nil => exact ⟨[], by simp [List.dropWhile, hz]⟩
  | cons y ys ih =>
    cases hpy : p y
    · exact ⟨y :: ys, by simp [List.dropWhile_cons, hpy]⟩
    · obtain ⟨u, hu⟩ := ih
      exact ⟨u, by simp [List.dropWhile_cons, hpy, hu]⟩

theorem takeWhile_append_single_false {p : Char → Bool} {y : Char} (hy : p y = false) :
    ∀ xs : List Char, List.takeWhile p (xs ++ [y]) = List.takeWhile p xs := by
  intro xs
  induction xs with
  | nil => simp [List.takeWhile, hy]
  | cons x xs ih =>
    rw [List.cons_append, List.takeWhile_cons, List.takeWhile_cons]
    cases hpx : p x <;> simp [hpx, ih]

theorem takeWhile_append_all {p : Char → Bool} :
    ∀ {xs : List Char}, (∀ x ∈ xs, p x = true) →
      ∀ ys, List.takeWhile p (xs ++ ys) = xs ++ List.takeWhile p ys := by
  intro xs
  induction xs with
  | nil => intro _ ys; simp
  | cons x xs ih =>
    intro h ys
    have hx : p x = true := h x (by simp)
    have hrest : ∀ a ∈ xs, p a = true := fun a ha => h a (by simp [ha])
    simp [List.takeWhile_cons, hx, ih hrest ys]

theorem takeWhile_append_of_bad {p : Char → Bool} :
    ∀ {xs : List Char}, (∃ x ∈ xs, p x = false) →
      ∀ ys, List.takeWhile p (xs ++ ys) = List.takeWhile p xs := by
  intro xs
  induction xs with
  | nil => intro h; simp at h
  | cons x xs ih =>
    intro h ys
    cases hpx : p x
    · simp [List.takeWhile_cons, hpx]
    · obtain ⟨w, hw, hpw⟩ := h
      have hbad : ∃ a ∈ xs, p a = false := by
        rcases List.mem_cons.mp hw with rfl | hmem
        · rw [hpx] at hpw; cases hpw
        · exact ⟨w, hmem, hpw⟩
      simp [List.takeWhile_cons, hpx, ih hbad ys]

/-! ### Facts about `trim` -/

theorem trimL_sublist (l : List Char) : List.Sublist (trimL l) l :=
  List.dropWhile_sublist _

theorem trimR_sublist (l : List Char) : List.Sublist (trimR l) l := by
  have h := (List.dropWhile_sublist (l := l.reverse) isWS).reverse
  simpa [trimR] using h

theorem trim_sublist (l : List Char) : List.Sublist (trim l) l :=
  (trimL_sublist (trimR l)).trans (trimR_sublist l)

theorem mem_trimL {c : Char} (hc : isWS c = false) {l : List Char} (h : c ∈ l) :
    c ∈ trimL l := by
  have hsplit := List.takeWhile_append_dropWhile (p := isWS) (l := l)
  rw [← hsplit] at h
  rcases List.mem_append.mp h with hin | hin
  · exact absurd (List.mem_takeWhile_imp hin) (by simp [hc])
  · exact hin

theorem mem_trimR {c : Char} (hc : isWS c = false) {l : List Char} (h : c ∈ l) :
    c ∈ trimR l := by
  unfold trimR
  rw [List.mem_reverse]
  exact mem_trimL hc (List.mem_reverse.mpr h)

theorem mem_trim {c : Char} (hc : isWS c = false) {l : List Char} (h : c ∈ l) :
    c ∈ trim l :=
  mem_trimL hc (mem_trimR hc h)

theorem trim_head_not_ws {l : List Char} {c : Char} {t : List Char}
    (h : trim l = c :: t) : isWS c = false := by
  unfold trim trimL at h
  exact dropWhile_head_false h

theorem trim_getLast_not_ws {l : List Char} {z : Char}
    (h : (trim l).getLast? = some z) : isWS z = false := by
  obtain ⟨pre, hpre⟩ := List.dropWhile_suffix (l := trimR l) isWS
  have hR : (trimR l).getLast? = some z := by
    rw [trim, trimL] at h
    rw [← hpre, List.getLast?_append, h]
    rfl
  rw [trimR, List.getLast?_reverse] at hR
  cases hd : l.reverse.dropWhile isWS with
  | nil => rw [hd] at hR; cases hR
  | cons c t =>
    rw [hd] at hR
    have hcz : c = z := by simpa using hR
    rw [← hcz]
    exact dropWhile_head_false hd

/-! ### Facts about `hasPipe` -/

theorem hasPipe_iff {l : List Char} : hasPipe l = true ↔ '|' ∈ l := by
  unfold hasPipe
  rw [List.any_eq_true]
  constructor
  · rintro ⟨x, hx, hpx⟩
    have hxp : x = '|' := by simpa using hpx
    rw [← hxp]
    exact hx
  · intro h
    exact ⟨'|', h, by simp⟩

theorem hasPipe_trim {l : List Char} (h : hasPipe l = true) : hasPipe (trim l) = true :=
  hasPipe_iff.mpr (mem_trim (by decide) (hasPipe_iff.mp h))

theorem hasPipe_of_trim {l : List Char} (h : hasPipe (trim l) = true) : hasPipe l = true :=
  hasPipe_iff.mpr (List.Sublist.mem (hasPipe_iff.mp h) (trim_sublist l))

theorem trim_ne_nil_of_hasPipe {l : List Char} (h : hasPipe (trim l) = true) :
    (trim l).isEmpty = false :=
  List.isEmpty_eq_false.mpr (List.ne_nil_of_mem (hasPipe_iff.mp h))

/-! ### Facts about `splitOnPipe` -/

theorem splitPipeAux_fst : ∀ l : List Char, (splitPipeAux l).1 = l.takeWhile notPipe := by
  intro l
  induction l with
  | nil => rfl
  | cons c r ih =>
    rw [List.takeWhile_cons]
    cases hc : c == '|'
    · simp [splitPipeAux, hc, notPipe, ih]
    · simp [splitPipeAux, hc, notPipe]

theorem splitPipeAux_no_pipe : ∀ {l : List Char}, hasPipe l = false → splitPipeAux l = (l, []) := by
  intro l
  induction l with
  | nil => intro _; rfl
  | cons c r ih =>
    intro h
    rw [hasPipe, List.any_cons, Bool.or_eq_false_iff] at h
    simp [splitPipeAux, h.1, ih h.2]

theorem splitPipeAux_snd_ne_nil : ∀ {l : List Char}, hasPipe l = true → (splitPipeAux l).2 ≠ [] := by
  intro l
  induction l with
  | nil => intro h; simp [hasPipe] at h
  | cons c r ih =>
    intro h
    cases hc : c == '|'
    · have hr : hasPipe r = true := by
        rw [hasPipe, List.any_cons, hc, Bool.false_or] at h
        exact h
      simpa [splitPipeAux, hc] using ih hr
    · simp [splitPipeAux, hc]

theorem splitOnPipe_length_ge_two {l : List Char} (h : hasPipe l = true) :
    2 ≤ (splitOnPipe l).length := by
  rw [splitOnPipe]
  cases hs : (splitPipeAux l).2 with
  | nil => exact absurd hs (splitPipeAux_snd_ne_nil h)
  | cons q qs => simp [List.length_cons]

theorem splitOnPipe_getLast? : ∀ l : List Char,
    (splitOnPipe l).getLast? = some ((l.reverse.takeWhile notPipe).reverse) := by
  intro l
  induction l with
  | nil => rfl
  | cons c r ih =>
    cases hc : c == '|'
    · cases hp : hasPipe r
      · have haux := splitPipeAux_no_pipe hp
        have hall : ∀ x ∈ r.reverse, notPipe x = true := by
          intro x hx
          rw [List.mem_reverse] at hx
          cases hxp : x == '|'
          · simp [notPipe, hxp]
          · have hxe : x = '|' := by simpa using hxp
            rw [hxe] at hx
            exact absurd (hasPipe_iff.mpr hx) (by simp [hp])
        have hstep : splitOnPipe (c :: r) = [c :: r] := by
          simp [splitOnPipe, splitPipeAux, hc, haux]
        rw [hstep, List.reverse_cons, takeWhile_append_all hall [c]]
        have hone : List.takeWhile notPipe [c] = [c] := by
          simp [List.takeWhile_cons, notPipe, hc]
        rw [hone, List.reverse_append]
        simp
      · have hsnd := splitPipeAux_snd_ne_nil hp
        obtain ⟨q, qs, hq⟩ : ∃ q qs, (splitPipeAux r).2 = q :: qs := by
          cases hs : (splitPipeAux r).2 with
          | nil => exact absurd hs hsnd
          | cons q qs => exact ⟨q, qs, rfl⟩
        have hstep : splitOnPipe (c :: r) = (c :: (splitPipeAux r).1) :: (splitPipeAux r).2 := by
          simp [splitOnPipe, splitPipeAux, hc]
        have hfold : (splitPipeAux r).1 :: (splitPipeAux r).2 = splitOnPipe r := rfl
        rw [hstep, hq, List.getLast?_cons_cons]
        have ihr : (q :: qs).getLast? = some ((r.reverse.takeWhile notPipe).reverse) := by
          rw [← List.getLast?_cons_cons (a := (splitPipeAux r).1), ← hq, hfold]
          exact ih
        rw [ihr, List.reverse_cons,
          takeWhile_append_of_bad ⟨'|', List.mem_reverse.mpr (hasPipe_iff.mp hp), by simp [notPipe]⟩ [c]]
    · have hstep : splitOnPipe (c :: r) = [] :: (splitPipeAux r).1 :: (splitPipeAux r).2 := by
        simp [splitOnPipe, splitPipeAux, hc]
      have hfold : (splitPipeAux r).1 :: (splitPipeAux r).2 = splitOnPipe r := rfl
      rw [hstep, List.getLast?_cons_cons, hfold, ih, List.reverse_cons,
        takeWhile_append_single_false (by simp [notPipe, hc]) r.reverse]

theorem splitOnPipe_head (l : List Char) :
    splitOnPipe l = l.takeWhile notPipe :: (splitPipeAux l).2 := by
  rw [splitOnPipe, splitPipeAux_fst]

/-! ### The two cell-list procedures agree on rows with a delimiter -/

theorem filterIdx_middle :
    ∀ (mid : List (List Char)) (n i : Nat) (z : List Char), 1 ≤ i → i + mid.length = n - 1 →
      filterIdx n i (mid ++ [z]) = mid ++ (if (trim z).isEmpty then [] else [z]) := by
  intro mid
  induction mid with
  | nil =>
    intro n i z h1 h2
    rw [List.length_nil] at h2
    have hz0 : (i == 0) = false := beq_eq_false_iff_ne.mpr (by omega)
    have hzl : (i == n - 1) = true := beq_iff_eq.mpr (by omega)
    simp only [List.nil_append, filterIdx, keepCell, hz0, hzl]
    cases hb : (trim z).isEmpty <;> simp [hb]
  | cons m mid ih =>
    intro n i z h1 h2
    rw [List.length_cons] at h2
    have hz0 : (i == 0) = false := beq_eq_false_iff_ne.mpr (by omega)
    have hzl : (i == n - 1) = false := beq_eq_false_iff_ne.mpr (by omega)
    simp only [List.cons_append, filterIdx, keepCell, hz0, hzl, Bool.false_and,
      Bool.or_self, Bool.not_false, if_true, List.append_eq]
    rw [ih n (i + 1) z (by omega) (by omega)]

theorem cells_procedures_agree_aux {trimmed : List Char} (hp : hasPipe trimmed = true) :
    cellsByFilter trimmed = cellsByShiftPop trimmed := by
  have hlen := splitOnPipe_length_ge_two hp
  rcases List.eq_nil_or_concat' ((splitPipeAux trimmed).2) with hnil | ⟨mid, z, hmz⟩
  · rw [splitOnPipe, hnil] at hlen
    simp at hlen
  · have hab : splitOnPipe trimmed = (splitPipeAux trimmed).1 :: (mid ++ [z]) := by
      rw [splitOnPipe, hmz]
    unfold cellsByFilter cellsByShiftPop
    rw [hab]
    generalize (splitPipeAux trimmed).1 = a
    have hn : (a :: (mid ++ [z])).length = mid.length + 2 := by simp
    rw [hn]
    have h0 : keepCell (mid.length + 2) 0 a = !(trim a).isEmpty := by
      have hl : ((0 : Nat) == mid.length + 2 - 1) = false := beq_eq_false_iff_ne.mpr (by omega)
      simp [keepCell, hl]
    simp only [filterIdx, h0]
    rw [filterIdx_middle mid (mid.length + 2) 1 z (by omega) (by omega)]
    have e1 : dropLastIfBlank (mid ++ [z]) = mid ++ (if (trim z).isEmpty then [] else [z]) := by
      cases hbz : (trim z).isEmpty <;>
        simp [dropLastIfBlank, List.getLast?_concat, List.dropLast_concat, hbz]
    have hg : (a :: (mid ++ [z])).getLast? = some z := by
      rw [show a :: (mid ++ [z]) = (a :: mid) ++ [z] from rfl, List.getLast?_concat]
    have hd : (a :: (mid ++ [z])).dropLast = a :: mid := by
      rw [show a :: (mid ++ [z]) = (a :: mid) ++ [z] from rfl, List.dropLast_concat]
    have e2 : dropLastIfBlank (a :: (mid ++ [z])) =
        a :: (mid ++ (if (trim z).isEmpty then [] else [z])) := by
      cases hbz : (trim z).isEmpty <;> simp [dropLastIfBlank, hg, hd, hbz]
    cases hba : (trim a).isEmpty <;> simp [dropFirstIfBlank, hba, e1, e2]

/-! ### Facts about the scanner -/

theorem scanLines_mem_ge :
    ∀ (lines : List (List Char)) (i : Nat) (st : Option Nat) (d : Diagnostic),
      d ∈ scanLines i st lines → i + 1 ≤ d.lineNumber := by
  intro lines
  induction lines with
  | nil => intro i st d h; simp [scanLines] at h
  | cons l rest ih =>
    intro i st d h
    cases st with
    | none =>
      rw [scanLines] at h
      split at h
      · exact Nat.le_trans (by omega) (ih (i + 1) _ d h)
      · exact Nat.le_trans (by omega) (ih (i + 1) none d h)
    | some exp =>
      rw [scanLines] at h
      split at h
      · exact Nat.le_trans (by omega) (ih (i + 1) _ d h)
      · split at h
        · exact Nat.le_trans (by omega) (ih (i + 1) _ d h)
        · split at h
          · exact Nat.le_trans (by omega) (ih (i + 1) _ d h)
          · split at h
            · rcases List.mem_cons.mp h with rfl | hmem
              · simp
              · exact Nat.le_trans (by omega) (ih (i + 1) _ d hmem)
            · exact Nat.le_trans (by omega) (ih (i + 1) _ d h)

theorem diagsAt_scan_later {n i : Nat} (h : n < i + 1) (st : Option Nat)
    (lines : List (List Char)) : diagsAt n (scanLines i st lines) = [] := by
  rw [diagsAt, List.filter_eq_nil_iff]
  intro d hd hb
  have hge := scanLines_mem_ge lines i st d hd
  have heq : d.lineNumber = n := by simpa using hb
  omega

theorem scan_matching_rows :
    ∀ (rows : List (List Char)) (exp : Nat),
      (∀ r ∈ rows, isTableRow r = true ∧ countColumns r = exp) →
      ∀ i, scanLines i (some exp) rows = [] ∧ scanLines i none rows = [] := by
  intro rows exp
  induction rows with
  | nil => intro _ i; exact ⟨rfl, rfl⟩
  | cons r rest ih =>
    intro h i
    have hr := h r (List.mem_cons_self r rest)
    have hrest : ∀ x ∈ rest, isTableRow x = true ∧ countColumns x = exp :=
      fun x hx => h x (List.mem_cons_of_mem r hx)
    have ihr := ih hrest
    constructor
    · by_cases hs : isSeparatorRow r = true
      · simp only [scanLines, hr.1, Bool.not_true, Bool.false_eq_true, if_false, hs, if_true]
        exact (ihr (i + 1)).1
      · by_cases hl : isLiquidOnlyRow r = true
        · simp only [scanLines, hr.1, Bool.not_true, Bool.false_eq_true, if_false]
          rw [if_neg hs, if_pos hl]
          exact (ihr (i + 1)).1
        · simp only [scanLines, hr.1, Bool.not_true, Bool.false_eq_true, if_false]
          rw [if_neg hs, if_neg hl]
          have hne : (countColumns r != exp) = false := by simp [hr.2]
          rw [hne]
          simp only [Bool.false_eq_true, if_false]
          exact (ihr (i + 1)).1
    · rw [scanLines]
      by_cases hc : (isTableRow r && nextIsSep rest) = true
      · rw [if_pos hc, hr.2]
        exact (ihr (i + 1)).1
      · rw [if_neg hc]
        exact (ihr (i + 1)).2

theorem scan_none_no_pair :
    ∀ (lines : List (List Char)) (i : Nat), hasOpeningPair lines = false →
      scanLines i none lines = [] := by
  intro lines
  induction lines with
  | nil => intro i _; rfl
  | cons l rest ih =>
    intro i h
    rw [hasOpeningPair, Bool.or_eq_false_iff] at h
    rw [scanLines, h.1]
    simp only [Bool.false_eq_true, if_false]
    exact ih (i + 1) h.2

/-! ### The claims -/

/-- C1: while a table region is active, a line that is a table row, not a
separator row, and not Liquid-only, whose column count differs from the
region's expected count, produces exactly one diagnostic at that line; its
message is exactly the more-columns text when actual exceeds expected and
exactly the missing-columns text when actual falls short. -/
theorem claim_mismatch_single_diagnostic
    (i exp : Nat) (l : List Char) (rest : List (List Char))
    (h1 : isTableRow l = true) (h2 : isSeparatorRow l = false)
    (h3 : isLiquidOnlyRow l = false) (h4 : countColumns l ≠ exp) :
    diagsAt (i + 1) (scanLines i (some exp) (l :: rest)) =
      [{ lineNumber := i + 1, detail := mkMessage (countColumns l) exp, context := l }] ∧
    (exp < countColumns l →
      mkMessage (countColumns l) exp =
        "Table row has " ++ toString (countColumns l) ++ " columns but header has " ++
        toString exp ++ ". Add " ++ toString (countColumns l - exp) ++
        " more column(s) to the header row to match this row.") ∧
    (countColumns l < exp →
      mkMessage (countColumns l) exp =
        "Table row has " ++ toString (countColumns l) ++ " columns but header has " ++
        toString exp ++ ". Add " ++ toString (exp - countColumns l) ++
        " missing column(s) to this row.") := by
  refine ⟨?_, ?_, ?_⟩
  · have hstep : scanLines i (some exp) (l :: rest) =
        { lineNumber := i + 1, detail := mkMessage (countColumns l) exp, context := l } ::
          scanLines (i + 1) (some exp) rest := by
      simp only [scanLines, h1, Bool.not_true, Bool.false_eq_true, if_false]
      rw [if_neg (by simp [h2]), if_neg (by simp [h3]), if_pos (bne_iff_ne.mpr h4)]
    rw [hstep, diagsAt, List.filter_cons_of_pos (by simp)]
    have htail := diagsAt_scan_later (n := i + 1) (i := i + 1) (by omega) (some exp) rest
    rw [diagsAt] at htail
    rw [htail]
  · intro hlt
    simp only [mkMessage, if_pos hlt]
  · intro hlt
    simp only [mkMessage, if_neg (by omega : ¬ exp < countColumns l)]

/-- Witness for C1 at the spec's first example: a 3-column data row under a
2-column header, sitting at 0-based index 2 (1-based line 3). -/
theorem claim_mismatch_single_diagnostic_witness :
    diagsAt 3 (scanLines 2 (some 2) [ "| a | b | c |".toList ]) =
      [{ lineNumber := 3
         detail := "Table row has 3 columns but header has 2. Add 1 more column(s) to the header row to match this row."
         context := "| a | b | c |".toList }] :=
  ((claim_mismatch_single_diagnostic 2 2 ( "| a | b | c |".toList ) []
      (by decide) (by decide) (by decide) (by decide)).1).trans (by decide)

/-- C2: a document that is exactly a well-formed table — a header table row, a
following separator row, and N data rows whose column counts all equal the
header's — yields zero diagnostics when the autogenerated flag is unset. -/
theorem claim_well_formed_table_clean
    (header sep : List Char) (rows : List (List Char))
    (hH : isTableRow header = true) (hS : isSeparatorRow sep = true)
    (hR : ∀ r ∈ rows, isTableRow r = true ∧ countColumns r = countColumns header) :
    tableColumnIntegrity false (header :: sep :: rows) = [] := by
  rw [tableColumnIntegrity, if_neg (by simp)]
  rw [scanLines, if_pos (by simp [hH, nextIsSep, hS])]
  by_cases ht : isTableRow sep = true
  · rw [scanLines, if_neg (by simp [ht]), if_pos hS]
    exact (scan_matching_rows rows (countColumns header) hR 2).1
  · have ht' : isTableRow sep = false := by
      revert ht
      cases isTableRow sep <;> simp
    rw [scanLines, if_pos (by rw [ht']; rfl)]
    exact (scan_matching_rows rows (countColumns header) hR 2).2

/-- Witness for C2: a two-column table with two matching data rows. -/
theorem claim_well_formed_table_clean_witness :
    tableColumnIntegrity false
      [ "| a | b |".toList, "|---|---|".toList, "| c | d |".toList, "| e | f |".toList ] = [] :=
  claim_well_formed_table_clean ( "| a | b |".toList ) ( "|---|---|".toList )
    [ "| c | d |".toList, "| e | f |".toList ] (by decide) (by decide) (by decide)

/-- C3: a table-row-shaped line whose next line is not a separator row never
moves the scanner into the INSIDE state — it is skipped with the state still
OUTSIDE — and when no later header+separator pair occurs either, the whole
scan emits no diagnostics. -/
theorem claim_no_separator_no_region
    (i : Nat) (l : List Char) (rest : List (List Char))
    (hTR : isTableRow l = true) (hN : nextIsSep rest = false) :
    scanLines i none (l :: rest) = scanLines (i + 1) none rest ∧
    (hasOpeningPair rest = false → scanLines i none (l :: rest) = []) := by
  have hstep : scanLines i none (l :: rest) = scanLines (i + 1) none rest := by
    rw [scanLines, hN]
    simp
  exact ⟨hstep, fun hpair => hstep.trans (scan_none_no_pair rest (i + 1) hpair)⟩

/-- Witness for C3: a table-row-shaped line followed by a mismatched-looking
table-row-shaped line, no separator anywhere: no diagnostics. -/
theorem claim_no_separator_no_region_witness :
    scanLines 0 none [ "| a | b |".toList, "| 1 | 2 | 3 |".toList ] = [] :=
  (claim_no_separator_no_region 0 ( "| a | b |".toList ) [ "| 1 | 2 | 3 |".toList ]
    (by decide) (by decide)).2 (by decide)

/-- C4: no diagnostic is ever emitted at a Liquid-only line, in any scanner
state, whatever its column count. -/
theorem claim_liquid_row_exempt
    (i : Nat) (st : Option Nat) (l : List Char) (rest : List (List Char))
    (h : isLiquidOnlyRow l = true) :
    diagsAt (i + 1) (scanLines i st (l :: rest)) = [] := by
  cases st with
  | none =>
    by_cases hc : (isTableRow l && nextIsSep rest) = true
    · rw [scanLines, if_pos hc]
      exact diagsAt_scan_later (by omega) _ rest
    · rw [scanLines, if_neg hc]
      exact diagsAt_scan_later (by omega) _ rest
  | some exp =>
    by_cases ht : isTableRow l = true
    · by_cases hs : isSeparatorRow l = true
      · rw [scanLines, if_neg (by simp [ht]), if_pos hs]
        exact diagsAt_scan_later (by omega) _ rest
      · rw [scanLines, if_neg (by simp [ht]), if_neg hs, if_pos h]
        exact diagsAt_scan_later (by omega) _ rest
    · have ht' : isTableRow l = false := by revert ht; cases isTableRow l <;> simp
      rw [scanLines, if_pos (by rw [ht']; rfl)]
      exact diagsAt_scan_later (by omega) _ rest

/-- Witness for C4 at the spec's example line, inside a region expecting 5
columns (the row's own count is 2, so only the exemption prevents a
diagnostic). -/
theorem claim_liquid_row_exempt_witness :
    diagsAt 3 (scanLines 2 (some 5) [ "\x7b% ifversion fpt %\x7d|\x7b% endif %\x7d".toList ]) = [] :=
  claim_liquid_row_exempt 2 (some 5)
    ( "\x7b% ifversion fpt %\x7d|\x7b% endif %\x7d".toList ) [] (by decide)

/-- C5: no diagnostic is ever emitted at a separator row, in any scanner
state — opening separator or a later one inside the region alike. -/
theorem claim_separator_row_never_flagged
    (i : Nat) (st : Option Nat) (l : List Char) (rest : List (List Char))
    (h : isSeparatorRow l = true) :
    diagsAt (i + 1) (scanLines i st (l :: rest)) = [] := by
  cases st with
  | none =>
    by_cases hc : (isTableRow l && nextIsSep rest) = true
    · rw [scanLines, if_pos hc]
      exact diagsAt_scan_later (by omega) _ rest
    · rw [scanLines, if_neg hc]
      exact diagsAt_scan_later (by omega) _ rest
  | some exp =>
    by_cases ht : isTableRow l = true
    · rw [scanLines, if_neg (by simp [ht]), if_pos h]
      exact diagsAt_scan_later (by omega) _ rest
    · have ht' : isTableRow l = false := by revert ht; cases isTableRow l <;> simp
      rw [scanLines, if_pos (by rw [ht']; rfl)]
      exact diagsAt_scan_later (by omega) _ rest

/-- Witness for C5: a separator row with mixed dashes and colons while a
3-column region is active (its own count differs, yet nothing is emitted). -/
theorem claim_separator_row_never_flagged_witness :
    diagsAt 2 (scanLines 1 (some 3) [ "|:---:|----|".toList ]) = [] :=
  claim_separator_row_never_flagged 1 (some 3) ( "|:---:|----|".toList ) [] (by decide)

/-- C6: a document whose decoded front matter sets a truthy `autogenerated`
flag yields zero diagnostics, whatever its body lines contain. -/
theorem claim_autogenerated_skips (lines : List (List Char)) :
    tableColumnIntegrity true lines = [] := rfl

/-- C7: `countColumns` returns 0 exactly for rows empty or delimiter-free
after trimming; otherwise it returns the length of the split list after the
blank-first/blank-last discard; it maps the spec's example to 2; and a trimmed
row that neither starts nor ends with the delimiter has no piece dropped. -/
theorem claim_countColumns_described (row : List Char) :
    ((trim row).isEmpty = true ∨ hasPipe (trim row) = false → countColumns row = 0) ∧
    (hasPipe (trim row) = true →
      countColumns row = (cellsByShiftPop (trim row)).length) ∧
    countColumns ( "| a | b |".toList ) = 2 ∧
    (hasPipe (trim row) = true → (trim row).head? ≠ some '|' →
      (trim row).getLast? ≠ some '|' →
      countColumns row = (splitOnPipe (trim row)).length) := by
  have hsplitcase : hasPipe (trim row) = true →
      countColumns row = (cellsByShiftPop (trim row)).length := by
    intro hp
    rw [countColumns, trim_ne_nil_of_hasPipe hp, hp]
    rfl
  refine ⟨?_, hsplitcase, by decide, ?_⟩
  · intro h
    rw [countColumns]
    rcases h with h | h
    · rw [h]
      rfl
    · rw [h]
      simp
  · intro hp hh hl
    have hne : (trim row).isEmpty = false := trim_ne_nil_of_hasPipe hp
    obtain ⟨c, t, hct⟩ : ∃ c t, trim row = c :: t := by
      cases htr : trim row with
      | nil => rw [htr] at hne; cases hne
      | cons c t => exact ⟨c, t, rfl⟩
    have hcw : isWS c = false := trim_head_not_ws hct
    have hcp : (c == '|') = false := by
      cases hcc : c == '|'
      · rfl
      · have hce : c = '|' := by simpa using hcc
        rw [hct, hce] at hh
        simp at hh
    have hfirstform : (trim row).takeWhile notPipe = c :: t.takeWhile notPipe := by
      rw [hct, List.takeWhile_cons]
      simp [notPipe, hcp]
    have hfb : (trim ((trim row).takeWhile notPipe)).isEmpty = false := by
      rw [hfirstform]
      exact List.isEmpty_eq_false.mpr
        (List.ne_nil_of_mem (mem_trim hcw (List.mem_cons_self c _)))
    obtain ⟨z, w, hzw⟩ : ∃ z w, (trim row).reverse = z :: w := by
      cases hrr : (trim row).reverse with
      | nil =>
        rw [hct] at hrr
        simp at hrr
      | cons z w => exact ⟨z, w, rfl⟩
    have hzlast : (trim row).getLast? = some z := by
      rw [← List.head?_reverse, hzw]
      rfl
    have hzws : isWS z = false := trim_getLast_not_ws hzlast
    have hzp : (z == '|') = false := by
      cases hzc : z == '|'
      · rfl
      · have hze : z = '|' := by simpa using hzc
        rw [hze] at hzlast
        exact absurd hzlast hl
    have hlastform : ((trim row).reverse.takeWhile notPipe).reverse =
        (w.takeWhile notPipe).reverse ++ [z] := by
      rw [hzw, List.takeWhile_cons]
      simp [notPipe, hzp, List.reverse_cons]
    have hlb : (trim (((trim row).reverse.takeWhile notPipe).reverse)).isEmpty = false := by
      rw [hlastform]
      exact List.isEmpty_eq_false.mpr
        (List.ne_nil_of_mem (mem_trim hzws (by simp)))
    have hdf : dropFirstIfBlank (splitOnPipe (trim row)) = splitOnPipe (trim row) := by
      rw [splitOnPipe_head, dropFirstIfBlank, if_neg (by simp [hfb])]
    have hdl : dropLastIfBlank (splitOnPipe (trim row)) = splitOnPipe (trim row) := by
      simp only [dropLastIfBlank, splitOnPipe_getLast?, hlb, Bool.false_eq_true, if_false]
    rw [hsplitcase hp, cellsByShiftPop, hdf, hdl]

/-- Witness for C7: the zero case at an all-blank row, and the no-piece-dropped
case at a row lacking both leading and trailing delimiters. -/
theorem claim_countColumns_described_witness :
    countColumns ( "   ".toList ) = 0 ∧
    countColumns ( "a | b".toList ) = (splitOnPipe (trim ( "a | b".toList ))).length :=
  ⟨(claim_countColumns_described ( "   ".toList )).1 (Or.inl (by decide)),
   (claim_countColumns_described ( "a | b".toList )).2.2.2 (by decide) (by decide) (by decide)⟩

/-- C8: on any row containing at least one delimiter, the index-based filter
used by `isLiquidOnlyRow` and the shift/pop discard used by `countColumns`
produce the same cell list. -/
theorem claim_cell_procedures_agree (row : List Char) (h : hasPipe row = true) :
    cellsByFilter (trim row) = cellsByShiftPop (trim row) :=
  cells_procedures_agree_aux (hasPipe_trim h)

/-- Witness for C8 at the spec's example row. -/
theorem claim_cell_procedures_agree_witness :
    cellsByFilter (trim ( "| a | b |".toList )) = cellsByShiftPop (trim ( "| a | b |".toList )) :=
  claim_cell_procedures_agree ( "| a | b |".toList ) (by decide)

/-- C9 counterexample: lines 1–2 open a region that is active at line 3; line 3
is delimiter-free and counts to 0 columns, yet the scan emits no diagnostic at
all — in particular not the mismatch diagnostic the claim asserts. -/
theorem claim_delimiter_free_counterexample :
    hasPipe ( "no pipes here".toList ) = false ∧
    countColumns ( "no pipes here".toList ) = 0 ∧
    scanLines 2 (some 2) [ "no pipes here".toList ] = [] ∧
    tableColumnIntegrity false
      [ "| a | b |".toList, "|---|---|".toList, "no pipes here".toList ] = [] := by
  decide

/-- C9 amended: the scanner is a total function (it cannot raise); a
delimiter-free row does count to 0 columns, but such a row fails the table-row
test, so while a region is active it closes the region and no comparison or
diagnostic happens at it. -/
theorem claim_delimiter_free_amended
    (l : List Char) (h : hasPipe l = false) :
    countColumns l = 0 ∧ isTableRow l = false ∧
    (∀ (i exp : Nat) (rest : List (List Char)),
      scanLines i (some exp) (l :: rest) = scanLines (i + 1) none rest) := by
  have htrim : hasPipe (trim l) = false := by
    cases hq : hasPipe (trim l)
    · rfl
    · rw [hasPipe_of_trim hq] at h
      cases h
  have hTR : isTableRow l = false := by
    cases hT : isTableRow l
    · rfl
    · exfalso
      unfold isTableRow at hT
      simp only [Bool.and_eq_true, beq_iff_eq] at hT
      have hhd : '|' ∈ (l.dropWhile isWS).head? := by
        rw [hT.1]
        rfl
      have hmem : '|' ∈ l :=
        List.Sublist.mem (List.mem_of_mem_head? hhd) (List.dropWhile_sublist _)
      exact absurd (hasPipe_iff.mpr hmem) (by simp [h])
  refine ⟨?_, hTR, ?_⟩
  · rw [countColumns, htrim]
    simp
  · intro i exp rest
    rw [scanLines, hTR]
    simp

/-- Witness for C9's amended statement at a concrete delimiter-free line in an
active 3-column region. -/
theorem claim_delimiter_free_amended_witness :
    countColumns ( "plain text".toList ) = 0 ∧
    isTableRow ( "plain text".toList ) = false ∧
    scanLines 5 (some 3) [ "plain text".toList ] = scanLines 6 none [] := by
  have h := claim_delimiter_free_amended ( "plain text".toList ) (by decide)
  exact ⟨h.1, h.2.1, h.2.2 5 3 []⟩

/-- C10: the cell pattern anchors the recognized keywords only as prefixes, so
cells whose directive keyword merely extends one (`elseware`, `ifversioned`)
are accepted; a row made of such cells is Liquid-only and therefore exempt
from column-count validation (2 cells under a 3-column header, no
diagnostic). -/
theorem claim_liquid_prefix_keywords :
    ¬ ( "elseware".toList ∈ liquidKeywords ) ∧
    ¬ ( "ifversioned".toList ∈ liquidKeywords ) ∧
    liquidCell ( "\x7b% elseware x %\x7d".toList ) = true ∧
    liquidCell ( "\x7b% ifversioned y %\x7d".toList ) = true ∧
    isLiquidOnlyRow ( "|\x7b% elseware x %\x7d|\x7b% ifversioned y %\x7d|".toList ) = true ∧
    countColumns ( "|\x7b% elseware x %\x7d|\x7b% ifversioned y %\x7d|".toList ) = 2 ∧
    tableColumnIntegrity false
      [ "| a | b | c |".toList, "|---|---|---|".toList,
        "|\x7b% elseware x %\x7d|\x7b% ifversioned y %\x7d|".toList ] = [] := by
  decide

end TableColumnIntegrity
